import Mathlib

/-!
Verification of the grouped compression/decompression pipeline of
`database_insert.py`.

The development shallowly embeds the pipeline:

* `Record` models the 5-tuples `(date, side, symbol, qty, price)`.
* `PyDate.isoformat` / `PyDate.fromisoformat` model `datetime.date`
  ISO-format printing and parsing (calendar-validated `YYYY-MM-DD`).
* `Dec` models the finite floating-point payloads as exact decimals:
  prices only pass through the codec (they are never computed with), and
  CPython's `repr`/`float` pair is the identity on finite floats, so an
  exact decimal with an injective textual form is a faithful model of the
  value as it crosses the wire.
* `json.dumps` / `json.loads` model the JSON codec at the shape actually
  serialized by the program: an array of arrays of scalars
  (string / int / float), printed with the default `", "` separator and
  parsed back with full validation.
* `zlib.compress` / `zlib.decompress` model the DEFLATE-class codec by its
  contract: a deterministic, lossless, framed byte transform whose
  decompressor rejects inputs that are not well-formed frames
  (header + checksum), mirroring zlib's header and adler32 trailer.
* `compress_group` / `decompress_group` / `groupRecords` /
  `retrieveAll` / `verifyData` are translated line by line from
  `database_insert.py` (`compress_group`, `decompress_group`, the grouping
  loop, the flatten step and the sorted-comparison verification).
* `poolMap` models `multiprocessing.Pool.map`: tasks are submitted with
  their index and may complete in an arbitrary order; every completed
  result is filed under its submission index.
-/

namespace DBCompress

/-! ### Decimal digits -/

def digitChar : Nat → Char
  | 0 => '0' | 1 => '1' | 2 => '2' | 3 => '3' | 4 => '4'
  | 5 => '5' | 6 => '6' | 7 => '7' | 8 => '8' | 9 => '9'
  | _ => '?'

def digitVal (c : Char) : Nat := c.toNat - 48

def isDigitCh (c : Char) : Bool := decide (48 ≤ c.toNat) && decide (c.toNat ≤ 57)

/-- Big-endian decimal digits of a positive number; `fuel`-driven so that the
kernel can evaluate it. -/
def natToCharsAux : Nat → Nat → List Char
  | 0, _ => []
  | _ + 1, 0 => []
  | fuel + 1, n + 1 => natToCharsAux fuel ((n + 1) / 10) ++ [digitChar ((n + 1) % 10)]

def natToChars (n : Nat) : List Char := if n = 0 then ['0'] else natToCharsAux n n

def charsToNat (cs : List Char) : Nat := cs.foldl (fun a c => a * 10 + digitVal c) 0

def intToChars (n : Int) : List Char :=
  if n < 0 then '-' :: natToChars n.natAbs else natToChars n.toNat

/-! ### Calendar dates (`datetime.date`) -/

structure PyDate where
  year : Nat
  month : Nat
  day : Nat
deriving DecidableEq, Repr

def isLeap (y : Nat) : Bool :=
  decide (y % 4 = 0) && (decide (y % 100 ≠ 0) || decide (y % 400 = 0))

def daysInMonth (y m : Nat) : Nat :=
  if m = 2 then (if isLeap y then 29 else 28)
  else if m = 4 ∨ m = 6 ∨ m = 9 ∨ m = 11 then 30
  else 31

/-- Calendar validity enforced by the `datetime.date` constructor. -/
def PyDate.valid (d : PyDate) : Bool :=
  decide (1 ≤ d.year) && decide (d.year ≤ 9999) &&
  decide (1 ≤ d.month) && decide (d.month ≤ 12) &&
  decide (1 ≤ d.day) && decide (d.day ≤ daysInMonth d.year d.month)

/-- Model of `date.isoformat`: zero-padded `YYYY-MM-DD`. -/
def PyDate.isoformat (d : PyDate) : String :=
  String.mk [digitChar (d.year / 1000 % 10), digitChar (d.year / 100 % 10),
    digitChar (d.year / 10 % 10), digitChar (d.year % 10), '-',
    digitChar (d.month / 10 % 10), digitChar (d.month % 10), '-',
    digitChar (d.day / 10 % 10), digitChar (d.day % 10)]

/-- Model of `date.fromisoformat`: parses `YYYY-MM-DD` and validates the
calendar date, rejecting everything else. -/
def PyDate.fromisoformat (s : String) : Option PyDate :=
  match s.data with
  | [y3, y2, y1, y0, h1, m1, m0, h2, d1, d0] =>
    if isDigitCh y3 && isDigitCh y2 && isDigitCh y1 && isDigitCh y0 && h1 == '-' &&
        isDigitCh m1 && isDigitCh m0 && h2 == '-' && isDigitCh d1 && isDigitCh d0 then
      let d : PyDate := ⟨charsToNat [y3, y2, y1, y0], charsToNat [m1, m0], charsToNat [d1, d0]⟩
      if d.valid then some d else none
    else none
  | _ => none

/-! ### Floating-point payloads as exact decimals -/

/-- Value `m / 10 ^ (fr + 1)`, printed with exactly `fr + 1` fractional
digits.  Models a finite float by the decimal literal `repr` produces for it
(every float repr carries at least one fractional digit). -/
structure Dec where
  m : Int
  fr : Nat
deriving DecidableEq, Repr

/-- Textual form of a `Dec`, e.g. `⟨1234, 1⟩ ↦ "12.34"`. -/
def Dec.chars (x : Dec) : List Char :=
  let p := 10 ^ (x.fr + 1)
  let mag := x.m.natAbs
  let frac := natToChars (mag % p)
  (if x.m < 0 then ['-'] else []) ++ natToChars (mag / p) ++
    '.' :: (List.replicate (x.fr + 1 - frac.length) '0' ++ frac)

/-- Rational value of a `Dec` (used only to order records for the verifier). -/
def Dec.val (x : Dec) : ℚ := (x.m : ℚ) / ((10 : ℚ) ^ (x.fr + 1))

/-! ### Records and the JSON wire shape -/

/-- One row of the `stocks` table: `(occurred_on, side, symbol, qty, price)`. -/
structure Record where
  occurred_on : PyDate
  side : String
  symbol : String
  quantity : Int
  price : Dec
deriving DecidableEq, Repr

/-- JSON scalars appearing in the serialized rows. -/
inductive Scalar where
  | sstr (s : String)
  | sint (n : Int)
  | sfloat (x : Dec)
deriving DecidableEq, Repr

/-! ### `json.dumps` -/

def escapeChars : List Char → List Char
  | [] => []
  | c :: cs =>
    if c == '"' || c == '\\' then '\\' :: c :: escapeChars cs else c :: escapeChars cs

def dumpScalar : Scalar → List Char
  | .sstr s => '"' :: (escapeChars s.data ++ ['"'])
  | .sint n => intToChars n
  | .sfloat x => x.chars

/-- Comma-space separated rendering, as produced by `json.dumps` with its
default separators. -/
def dumpList (f : α → List Char) : List α → List Char
  | [] => []
  | [a] => f a
  | a :: b :: rest => f a ++ ',' :: ' ' :: dumpList f (b :: rest)

def dumpRow (row : List Scalar) : List Char := '[' :: (dumpList dumpScalar row ++ [']'])

def dumpPayload (p : List (List Scalar)) : List Char := '[' :: (dumpList dumpRow p ++ [']'])

def json.dumps (p : List (List Scalar)) : String := String.mk (dumpPayload p)

/-! ### `json.loads` -/

/-- Parses the body of a JSON string after the opening quote, undoing
`escapeChars`, up to and including the closing quote. -/
def parseStrBody : List Char → Option (List Char × List Char)
  | [] => none
  | c :: rest =>
    if c == '"' then some ([], rest)
    else if c == '\\' then
      match rest with
      | [] => none
      | c2 :: rest2 => (parseStrBody rest2).map (fun p => (c2 :: p.1, p.2))
    else (parseStrBody rest).map (fun p => (c :: p.1, p.2))

def parseNumber (cs : List Char) : Option (Scalar × List Char) :=
  let neg := cs.head? == some '-'
  let cs1 := if neg then cs.tail else cs
  let intDs := cs1.takeWhile isDigitCh
  let rest1 := cs1.dropWhile isDigitCh
  if intDs.isEmpty then none
  else
    match rest1 with
    | '.' :: rest2 =>
      let fracDs := rest2.takeWhile isDigitCh
      let rest3 := rest2.dropWhile isDigitCh
      if fracDs.isEmpty then none
      else
        let mag : Nat := charsToNat intDs * 10 ^ fracDs.length + charsToNat fracDs
        some (.sfloat ⟨if neg then -(mag : Int) else (mag : Int), fracDs.length - 1⟩, rest3)
    | _ => some (.sint (if neg then -(charsToNat intDs : Int) else (charsToNat intDs : Int)), rest1)

def parseScalar : List Char → Option (Scalar × List Char)
  | [] => none
  | c :: rest =>
    if c == '"' then (parseStrBody rest).map (fun p => (Scalar.sstr (String.mk p.1), p.2))
    else parseNumber (c :: rest)

/-- Elements of a non-empty JSON array of scalars, consuming the closing
bracket.  Fuel-driven; any fuel of at least the element count works. -/
def parseRowElems : Nat → List Char → Option (List Scalar × List Char)
  | 0, _ => none
  | fuel + 1, cs =>
    match parseScalar cs with
    | none => none
    | some (v, r) =>
      match r with
      | ']' :: r2 => some ([v], r2)
      | ',' :: ' ' :: r2 =>
        match parseRowElems fuel r2 with
        | none => none
        | some (vs, r3) => some (v :: vs, r3)
      | _ => none

def parseRow (cs : List Char) : Option (List Scalar × List Char) :=
  match cs with
  | '[' :: r =>
    if r.head? = some ']' then some ([], r.tail) else parseRowElems (r.length + 1) r
  | _ => none

/-- Elements of a non-empty JSON array of rows, consuming the closing
bracket. -/
def parsePayloadElems : Nat → List Char → Option (List (List Scalar) × List Char)
  | 0, _ => none
  | fuel + 1, cs =>
    match parseRow cs with
    | none => none
    | some (v, r) =>
      match r with
      | ']' :: r2 => some ([v], r2)
      | ',' :: ' ' :: r2 =>
        match parsePayloadElems fuel r2 with
        | none => none
        | some (vs, r3) => some (v :: vs, r3)
      | _ => none

def parsePayload (cs : List Char) : Option (List (List Scalar) × List Char) :=
  match cs with
  | '[' :: r =>
    if r.head? = some ']' then some ([], r.tail) else parsePayloadElems (r.length + 1) r
  | _ => none

/-- Model of `json.loads` on the wire shape of the pipeline: the whole input
must parse as one array of arrays of scalars. -/
def json.loads (s : String) : Option (List (List Scalar)) :=
  match parsePayload s.data with
  | some (p, rest) => if rest.isEmpty then some p else none
  | none => none

/-! ### Bytes and the zlib codec -/

/-- Model of `str.encode`: one abstract byte per character. -/
def strToBytes (s : String) : List Nat := s.data.map Char.toNat

def byteToChar (b : Nat) : Option Char :=
  if _h : b.isValidChar then some (Char.ofNat b) else none

/-- Model of `bytes.decode`, failing on byte values that denote no
character. -/
def bytesToStr (bs : List Nat) : Option String := (bs.mapM byteToChar).map String.mk

/-- Modelled from the spec: the DEFLATE-class codec (`zlib.compress` /
`zlib.decompress`, external library code).  The model keeps the contract the
spec relies on: a deterministic pure function, lossless with the matching
decompressor, whose decompressor rejects inputs that are not well-formed
frames.  The frame mirrors zlib's layout: a two-byte header and a checksum
trailer over the payload. -/
def zlibChecksum (bs : List Nat) : Nat := (1 + bs.sum) % 65521

def zlib.compress (bs : List Nat) : List Nat :=
  120 :: 156 :: (bs ++ [zlibChecksum bs])

def zlib.decompress (bs : List Nat) : Option (List Nat) :=
  match bs with
  | b0 :: b1 :: rest =>
    if b0 == 120 && b1 == 156 then
      match rest.getLast? with
      | some c => if zlibChecksum rest.dropLast == c then some rest.dropLast else none
      | none => none
    else none
  | _ => none

/-! ### The worker functions of `database_insert.py` -/

/-- Wire row of one record: `[r[0].isoformat()] + list(r[1:])`. -/
def serializeRecord (r : Record) : List Scalar :=
  [.sstr r.occurred_on.isoformat, .sstr r.side, .sstr r.symbol,
   .sint r.quantity, .sfloat r.price]

/-- Model of `compress_group`: serialize the group's records with dates as
ISO strings, JSON-encode, compress, and pair with the group date. -/
def compress_group (group : PyDate × List Record) : PyDate × List Nat :=
  (group.1, zlib.compress (strToBytes (json.dumps (group.2.map serializeRecord))))

/-- Umbrella error for every exception `decompress_group` can propagate
(`zlib.error`, `UnicodeDecodeError`, `json.JSONDecodeError`, `TypeError`,
`ValueError`, `IndexError`); the spec's error taxonomy names this failure
mode `CorruptBlobError`. -/
inductive CorruptBlobError where
  | zlibError
  | unicodeDecodeError
  | jsonDecodeError
  | typeError
  | valueError
  | indexError
deriving DecidableEq, Repr

/-- One reconstructed tuple: the date revived from its ISO string, followed
by the remaining wire fields unchanged. -/
def toDecodedRow : List Scalar → Except CorruptBlobError (PyDate × List Scalar)
  | [] => .error .indexError
  | .sstr s :: rest =>
    match PyDate.fromisoformat s with
    | some d => .ok (d, rest)
    | none => .error .valueError
  | .sint _ :: _ => .error .typeError
  | .sfloat _ :: _ => .error .typeError

/-- Model of `decompress_group`: decompress, decode, JSON-parse, and revive
the date of every row; any stage failure propagates as a
`CorruptBlobError`. -/
def decompress_group (row : PyDate × List Nat) :
    Except CorruptBlobError (List (PyDate × List Scalar)) :=
  match zlib.decompress row.2 with
  | none => .error .zlibError
  | some bs =>
    match bytesToStr bs with
    | none => .error .unicodeDecodeError
    | some s =>
      match json.loads s with
      | none => .error .jsonDecodeError
      | some rows => rows.mapM toDecodedRow

/-! ### The grouping loop of `main` -/

/-- One step of `grouped_records[rec[0]].append(rec)` on an insertion-ordered
association list, the model of the insertion-ordered Python dict. -/
def addToGroups (gs : List (PyDate × List Record)) (r : Record) : List (PyDate × List Record) :=
  match gs with
  | [] => [(r.occurred_on, [r])]
  | (k, rs) :: rest =>
    if k = r.occurred_on then (k, rs ++ [r]) :: rest else (k, rs) :: addToGroups rest r

/-- Model of the grouping loop of `main`. -/
def groupRecords (records : List Record) : List (PyDate × List Record) :=
  records.foldl addToGroups []

/-- First group stored under a key, as Python's dict lookup. -/
def findGroup : List (PyDate × List Record) → PyDate → List Record
  | [], _ => []
  | (k, rs) :: rest, key => if k = key then rs else findGroup rest key

/-! ### The whole read/write cycle of `main` -/

def compressAll (records : List Record) : List (PyDate × List Nat) :=
  (groupRecords records).map compress_group

def decompressAll (rows : List (PyDate × List Nat)) :
    Except CorruptBlobError (List (List (PyDate × List Scalar))) :=
  rows.mapM decompress_group

/-- Group, compress, decompress, and flatten, as `main` does around the
store. -/
def retrieveAll (records : List Record) :
    Except CorruptBlobError (List (PyDate × List Scalar)) :=
  (decompressAll (compressAll records)).map List.flatten

/-- The tuple `main` compares a retrieved row against: the original record
with its date split off, exactly the shape `decompress_group` rebuilds. -/
def recToDecoded (r : Record) : PyDate × List Scalar :=
  (r.occurred_on, [.sstr r.side, .sstr r.symbol, .sint r.quantity, .sfloat r.price])

/-! ### The verification step of `main` -/

/-- Sort key realizing Python's lexicographic tuple comparison: date fields
first, then the remaining fields (injectively rendered). -/
def recKey (x : PyDate × List Scalar) : Lex (Nat × Lex (Nat × Lex (Nat × String))) :=
  toLex (x.1.year, toLex (x.1.month, toLex (x.1.day, String.mk (dumpRow x.2))))

def recLE (a b : PyDate × List Scalar) : Prop := recKey a ≤ recKey b

instance : DecidableRel recLE := fun a b =>
  inferInstanceAs (Decidable (recKey a ≤ recKey b))

def sortedRecs (l : List (PyDate × List Scalar)) : List (PyDate × List Scalar) :=
  l.insertionSort recLE

/-- Model of `sorted(records) == sorted(all_retrieved_records)`. -/
def verifyData (orig : List Record) (retr : List (PyDate × List Scalar)) : Bool :=
  decide (sortedRecs (orig.map recToDecoded) = sortedRecs retr)

/-! ### The parallel dispatcher -/

/-- Modelled from the spec: `multiprocessing.Pool.map` (external library
code).  Workers receive the indexed items and complete in an arbitrary
`order`; each completion files its result under the submission index. -/
def runTasks (f : α → β) (items : List α) (order : List Nat) : List (Nat × β) :=
  order.filterMap (fun i => (items.get? i).map (fun a => (i, f a)))

def findResult : List (Nat × β) → Nat → Option β
  | [], _ => none
  | (j, b) :: rest, i => if j = i then some b else findResult rest i

/-- Modelled from the spec: the fan-in of `Pool.map` — one slot per
submitted item, filled from the completed results. -/
def poolMap (f : α → β) (items : List α) (order : List Nat) : List (Option β) :=
  (List.range items.length).map (findResult (runTasks f items order))

/-! ### Concrete data for witnesses (the spec's §8 scenario) -/

def demoRecords : List Record :=
  [⟨⟨2023, 5, 1⟩, "BUY", "ABCD", 100, ⟨1234, 1⟩⟩,
   ⟨⟨2023, 5, 1⟩, "SELL", "WXYZ", 50, ⟨9999, 1⟩⟩,
   ⟨⟨2023, 5, 2⟩, "BUY", "ABCD", 10, ⟨50, 0⟩⟩]

instance {ε α : Type} [DecidableEq ε] [DecidableEq α] : DecidableEq (Except ε α) := fun a b =>
  match a, b with
  | .error e, .error f => decidable_of_iff (e = f) (by simp)
  | .ok x, .ok y => decidable_of_iff (x = y) (by simp)
  | .error _, .ok _ => isFalse (by simp)
  | .ok _, .error _ => isFalse (by simp)

/-! ## Lemmas about decimal digits -/

theorem digitVal_digitChar {d : Nat} (h : d < 10) : digitVal (digitChar d) = d := by
  interval_cases d <;> rfl

theorem isDigitCh_digitChar {d : Nat} (h : d < 10) : isDigitCh (digitChar d) = true := by
  interval_cases d <;> rfl

theorem charsToNat_foldl (a : Nat) (ys : List Char) :
    ys.foldl (fun a c => a * 10 + digitVal c) a = a * 10 ^ ys.length + charsToNat ys := by
  induction ys generalizing a with
  | nil => simp [charsToNat]
  | cons c ys ih =>
    show List.foldl _ (a * 10 + digitVal c) ys = _
    rw [ih (a * 10 + digitVal c)]
    have : charsToNat (c :: ys) = digitVal c * 10 ^ ys.length + charsToNat ys := by
      show List.foldl _ (0 * 10 + digitVal c) ys = _
      rw [ih (0 * 10 + digitVal c)]; ring
    rw [this]; simp [List.length_cons]; ring

theorem charsToNat_append (xs ys : List Char) :
    charsToNat (xs ++ ys) = charsToNat xs * 10 ^ ys.length + charsToNat ys := by
  unfold charsToNat
  rw [List.foldl_append]
  exact charsToNat_foldl _ ys

theorem charsToNat_replicate_zero (k : Nat) (cs : List Char) :
    charsToNat (List.replicate k '0' ++ cs) = charsToNat cs := by
  rw [charsToNat_append]
  have : charsToNat (List.replicate k '0') = 0 := by
    induction k with
    | zero => rfl
    | succ k ih =>
      rw [List.replicate_succ]
      show List.foldl _ (0 * 10 + digitVal '0') _ = 0
      simpa [digitVal] using ih
  simp [this]

theorem charsToNat_natToCharsAux {fuel n : Nat} (h : n ≤ fuel) :
    charsToNat (natToCharsAux fuel n) = n := by
  induction fuel generalizing n with
  | zero =>
    interval_cases n
    rfl
  | succ fuel ih =>
    match n with
    | 0 => rfl
    | n + 1 =>
      rw [natToCharsAux, charsToNat_append]
      have hdiv : (n + 1) / 10 ≤ fuel := by
        have := Nat.div_lt_self (Nat.succ_pos n) (by omega : 1 < 10)
        omega
      rw [ih hdiv]
      simp [charsToNat, digitVal_digitChar (Nat.mod_lt _ (by omega) : (n + 1) % 10 < 10)]
      omega

theorem charsToNat_natToChars (n : Nat) : charsToNat (natToChars n) = n := by
  unfold natToChars
  split
  · simp [charsToNat, digitVal, *]
  · exact charsToNat_natToCharsAux le_rfl

theorem natToCharsAux_digits {fuel n : Nat} (h : n ≤ fuel) :
    ∀ c ∈ natToCharsAux fuel n, isDigitCh c = true := by
  induction fuel generalizing n with
  | zero =>
    interval_cases n
    intro c hc; simp [natToCharsAux] at hc
  | succ fuel ih =>
    match n with
    | 0 => intro c hc; simp [natToCharsAux] at hc
    | n + 1 =>
      rw [natToCharsAux]
      intro c hc
      rcases List.mem_append.mp hc with h1 | h1
      · exact ih (by
          have := Nat.div_lt_self (Nat.succ_pos n) (by omega : 1 < 10)
          omega) c h1
      · simp at h1
        subst h1
        exact isDigitCh_digitChar (Nat.mod_lt _ (by omega))

theorem natToChars_digits (n : Nat) : ∀ c ∈ natToChars n, isDigitCh c = true := by
  unfold natToChars
  split
  · intro c hc; simp at hc; subst hc; rfl
  · exact natToCharsAux_digits le_rfl

theorem natToCharsAux_length {fuel n w : Nat} (h : n ≤ fuel) (hw : n < 10 ^ w) :
    (natToCharsAux fuel n).length ≤ w := by
  induction fuel generalizing n w with
  | zero =>
    interval_cases n
    simp [natToCharsAux]
  | succ fuel ih =>
    match n with
    | 0 => simp [natToCharsAux]
    | n + 1 =>
      rw [natToCharsAux]
      have hwpos : 0 < w := by
        by_contra hc
        have : w = 0 := by omega
        subst this
        simp at hw
      have hdiv : (n + 1) / 10 ≤ fuel := by
        have := Nat.div_lt_self (Nat.succ_pos n) (by omega : 1 < 10)
        omega
      have hdw : (n + 1) / 10 < 10 ^ (w - 1) := by
        have h10 : 10 ^ w = 10 ^ (w - 1) * 10 := by
          conv_lhs => rw [show w = (w - 1) + 1 by omega]
          rw [pow_succ]
        apply Nat.div_lt_of_lt_mul
        omega
      have := ih hdiv hdw
      simp only [List.length_append, List.length_cons, List.length_nil]
      omega

theorem natToChars_length {n w : Nat} (hn : 0 < n) (hw : n < 10 ^ w) :
    (natToChars n).length ≤ w := by
  unfold natToChars
  rw [if_neg (by omega)]
  exact natToCharsAux_length le_rfl hw

theorem natToChars_ne_nil (n : Nat) : natToChars n ≠ [] := by
  unfold natToChars
  split
  · simp
  · match h : n, ‹¬n = 0› with
    | 0, h0 => exact absurd rfl h0
    | n + 1, _ => simp [natToCharsAux]

/-! ## Lemmas about token splitting -/

theorem takeWhile_all_append {p : Char → Bool} {xs ys : List Char}
    (hx : ∀ c ∈ xs, p c = true) (hy : ∀ c, ys.head? = some c → p c = false) :
    (xs ++ ys).takeWhile p = xs ∧ (xs ++ ys).dropWhile p = ys := by
  induction xs with
  | nil =>
    simp only [List.nil_append]
    cases ys with
    | nil => simp
    | cons c ys' =>
      have := hy c rfl
      simp [List.takeWhile_cons, List.dropWhile_cons, this]
  | cons x xs ih =>
    have hx1 : p x = true := hx x (List.mem_cons_self x xs)
    have ⟨iht, ihd⟩ := ih (fun c hc => hx c (List.mem_cons_of_mem x hc))
    simp [List.takeWhile_cons, List.dropWhile_cons, hx1, iht, ihd]

theorem ne_of_digit {c d : Char} (h : isDigitCh c = true) (hd : isDigitCh d = false) : c ≠ d := by
  intro e
  subst e
  rw [h] at hd
  cases hd

theorem natToChars_cons (n : Nat) : ∃ c tl, natToChars n = c :: tl ∧ isDigitCh c = true := by
  cases h : natToChars n with
  | nil => exact absurd h (natToChars_ne_nil n)
  | cons c tl =>
    refine ⟨c, tl, rfl, ?_⟩
    exact natToChars_digits n c (h ▸ List.mem_cons_self c tl)

/-- Separator condition after a serialized number token: the remaining input
must not start with a digit or a decimal point (in the wire format it starts
with a comma or a closing bracket, or is empty). -/
def sepOk (rest : List Char) : Prop :=
  ∀ c, rest.head? = some c → isDigitCh c = false ∧ c ≠ '.'

/-! ## Number parsing round-trip -/

theorem parseNumber_int (n : Int) {rest : List Char} (hrest : sepOk rest) :
    parseNumber (intToChars n ++ rest) = some (.sint n, rest) := by
  rcases lt_or_le n 0 with hn | hn
  · -- negative: a leading minus sign, then the digits of the magnitude
    obtain ⟨c, tl, hc, hdig⟩ := natToChars_cons n.natAbs
    have hsplit := @takeWhile_all_append isDigitCh (natToChars n.natAbs) rest
      (natToChars_digits n.natAbs) (fun c hc => (hrest c hc).1)
    rw [intToChars, if_pos hn]
    simp only [parseNumber, List.cons_append, List.head?_cons, List.tail_cons]
    have hbeq : (some '-' == some '-') = true := by decide
    rw [hbeq]
    simp only [if_true, hsplit.1, hsplit.2]
    rw [List.isEmpty_eq_false_iff_exists_mem.mpr ⟨c, hc ▸ List.mem_cons_self c tl⟩]
    simp only [Bool.false_eq_true, if_false]
    have hval : charsToNat (natToChars n.natAbs) = n.natAbs := charsToNat_natToChars _
    cases rest with
    | nil =>
      simp only [hval]
      have : -(n.natAbs : Int) = n := by omega
      rw [this]
    | cons r rs =>
      have hr := hrest r rfl
      split
      · next heq => exact (hr.2 (List.cons.inj heq).1).elim
      · simp only [hval]
        have : -(n.natAbs : Int) = n := by omega
        rw [this]
  · -- non-negative: just the digits
    obtain ⟨c, tl, hc, hdig⟩ := natToChars_cons n.toNat
    have hsplit := @takeWhile_all_append isDigitCh (natToChars n.toNat) rest
      (natToChars_digits n.toNat) (fun c hc => (hrest c hc).1)
    rw [intToChars, if_neg (by omega)]
    simp only [parseNumber]
    rw [hc]
    simp only [List.cons_append, List.head?_cons]
    have hbeq : (some c == some '-') = false := by
      have : c ≠ '-' := ne_of_digit hdig (by decide)
      simp [this]
    rw [hbeq]
    simp only [Bool.false_eq_true, if_false]
    have hrw : c :: (tl ++ rest) = natToChars n.toNat ++ rest := by
      rw [hc, List.cons_append]
    rw [hrw, hsplit.1, hsplit.2]
    rw [List.isEmpty_eq_false_iff_exists_mem.mpr ⟨c, hc ▸ List.mem_cons_self c tl⟩]
    simp only [Bool.false_eq_true, if_false]
    have hval : charsToNat (natToChars n.toNat) = n.toNat := charsToNat_natToChars _
    cases rest with
    | nil =>
      simp only [hval]
      have : (n.toNat : Int) = n := by omega
      rw [this]
    | cons r rs =>
      have hr := hrest r rfl
      split
      · next heq => exact (hr.2 (List.cons.inj heq).1).elim
      · simp only [hval]
        have : (n.toNat : Int) = n := by omega
        rw [this]

theorem natToChars_length_le {n w : Nat} (hw : 0 < w) (hn : n < 10 ^ w) :
    (natToChars n).length ≤ w := by
  rcases Nat.eq_zero_or_pos n with h0 | hpos
  · subst h0
    simpa [natToChars] using hw
  · exact natToChars_length hpos hn

theorem Dec_chars_eq (x : Dec) :
    x.chars = (if x.m < 0 then ['-'] else []) ++ natToChars (x.m.natAbs / 10 ^ (x.fr + 1)) ++
      '.' :: (List.replicate (x.fr + 1 - (natToChars (x.m.natAbs % 10 ^ (x.fr + 1))).length) '0' ++
        natToChars (x.m.natAbs % 10 ^ (x.fr + 1))) := rfl

/-- The zero-padded fractional digit block of a `Dec`. -/
def fracBlock (x : Dec) : List Char :=
  List.replicate (x.fr + 1 - (natToChars (x.m.natAbs % 10 ^ (x.fr + 1))).length) '0' ++
    natToChars (x.m.natAbs % 10 ^ (x.fr + 1))

theorem fracBlock_digits (x : Dec) : ∀ c ∈ fracBlock x, isDigitCh c = true := by
  intro c hc
  rcases List.mem_append.mp hc with h1 | h1
  · rw [List.eq_of_mem_replicate h1]; rfl
  · exact natToChars_digits _ c h1

theorem fracBlock_length (x : Dec) : (fracBlock x).length = x.fr + 1 := by
  unfold fracBlock
  have hlt : x.m.natAbs % 10 ^ (x.fr + 1) < 10 ^ (x.fr + 1) :=
    Nat.mod_lt _ (Nat.pos_pow_of_pos _ (by omega))
  have hle : (natToChars (x.m.natAbs % 10 ^ (x.fr + 1))).length ≤ x.fr + 1 :=
    natToChars_length_le (by omega) hlt
  simp only [List.length_append, List.length_replicate]
  omega

theorem charsToNat_fracBlock (x : Dec) :
    charsToNat (fracBlock x) = x.m.natAbs % 10 ^ (x.fr + 1) := by
  unfold fracBlock
  rw [charsToNat_replicate_zero, charsToNat_natToChars]

theorem parseNumber_dec (x : Dec) {rest : List Char} (hrest : sepOk rest) :
    parseNumber (x.chars ++ rest) = some (.sfloat x, rest) := by
  have hx : x.chars ++ rest =
      (if x.m < 0 then ['-'] else []) ++ (natToChars (x.m.natAbs / 10 ^ (x.fr + 1)) ++
        '.' :: (fracBlock x ++ rest)) := by
    rw [Dec_chars_eq]
    simp [fracBlock, List.append_assoc]
  obtain ⟨c, tl, hc, hdig⟩ := natToChars_cons (x.m.natAbs / 10 ^ (x.fr + 1))
  have hsplitInt := @takeWhile_all_append isDigitCh
    (natToChars (x.m.natAbs / 10 ^ (x.fr + 1))) ('.' :: (fracBlock x ++ rest))
    (natToChars_digits _) (by intro c hc; cases hc; decide)
  have hsplitFrac := @takeWhile_all_append isDigitCh (fracBlock x) rest
    (fracBlock_digits x) (fun c hc => (hrest c hc).1)
  have hne : (natToChars (x.m.natAbs / 10 ^ (x.fr + 1))).isEmpty = false :=
    List.isEmpty_eq_false_iff_exists_mem.mpr ⟨c, hc ▸ List.mem_cons_self c tl⟩
  have hfbne : (fracBlock x).isEmpty = false := by
    have hlen := fracBlock_length x
    cases hfb : fracBlock x with
    | nil => rw [hfb] at hlen; simp at hlen
    | cons a l => rfl
  have hmagN : charsToNat (natToChars (x.m.natAbs / 10 ^ (x.fr + 1))) *
        10 ^ (fracBlock x).length + charsToNat (fracBlock x) = x.m.natAbs := by
    rw [charsToNat_natToChars, fracBlock_length, charsToNat_fracBlock]
    exact Nat.div_add_mod' _ _
  have hfrN : (fracBlock x).length - 1 = x.fr := by
    rw [fracBlock_length]
    omega
  rcases lt_or_le x.m 0 with hm | hm
  · rw [hx, if_pos hm]
    simp only [parseNumber, List.cons_append, List.nil_append, List.head?_cons, List.tail_cons]
    have hbeq : (some '-' == some '-') = true := by decide
    rw [hbeq]
    simp only [if_true]
    rw [hsplitInt.1, hsplitInt.2, hne]
    simp only [Bool.false_eq_true, if_false]
    rw [hsplitFrac.1, hsplitFrac.2, hfbne]
    simp only [Bool.false_eq_true, if_false]
    rw [hmagN, hfrN]
    have : -(x.m.natAbs : Int) = x.m := by omega
    rw [this]
  · rw [hx, if_neg (by omega)]
    simp only [List.nil_append]
    rw [hc]
    simp only [parseNumber, List.cons_append, List.head?_cons]
    have hbeq : (some c == some '-') = false := by
      have : c ≠ '-' := ne_of_digit hdig (by decide)
      simp [this]
    rw [hbeq]
    simp only [Bool.false_eq_true, if_false]
    have hrw : c :: (tl ++ '.' :: (fracBlock x ++ rest)) =
        natToChars (x.m.natAbs / 10 ^ (x.fr + 1)) ++ '.' :: (fracBlock x ++ rest) := by
      rw [hc, List.cons_append]
    rw [hrw, hsplitInt.1, hsplitInt.2, hne]
    simp only [Bool.false_eq_true, if_false]
    rw [hsplitFrac.1, hsplitFrac.2, hfbne]
    simp only [Bool.false_eq_true, if_false]
    rw [hmagN, hfrN]
    have : (x.m.natAbs : Int) = x.m := by omega
    rw [this]

/-! ## String and scalar parsing round-trip -/

theorem parseStrBody_escape (s : List Char) (rest : List Char) :
    parseStrBody (escapeChars s ++ '"' :: rest) = some (s, rest) := by
  induction s with
  | nil =>
    show parseStrBody ('"' :: rest) = some ([], rest)
    rw [parseStrBody.eq_def]
    simp
  | cons c cs ih =>
    by_cases hc : (c == '"' || c == '\\') = true
    · have he : escapeChars (c :: cs) = '\\' :: c :: escapeChars cs := by
        rw [escapeChars.eq_def]
        simp [hc]
      rw [he]
      show parseStrBody ('\\' :: (c :: (escapeChars cs ++ '"' :: rest))) = _
      rw [parseStrBody.eq_def]
      simp [ih]
    · have h1 : (c == '"') = false := by
        cases h : c == '"'
        · rfl
        · exact absurd (by simp [h]) hc
      have h2 : (c == '\\') = false := by
        cases h : c == '\\'
        · rfl
        · exact absurd (by simp [h]) hc
      have he : escapeChars (c :: cs) = c :: escapeChars cs := by
        rw [escapeChars.eq_def]
        simp [hc]
      rw [he]
      show parseStrBody (c :: (escapeChars cs ++ '"' :: rest)) = _
      rw [parseStrBody.eq_def]
      simp [h1, h2, ih]

theorem sepOk_cons {c : Char} {rest : List Char} (h1 : isDigitCh c = false) (h2 : c ≠ '.') :
    sepOk (c :: rest) := by
  intro d hd
  rw [List.head?_cons, Option.some.injEq] at hd
  subst hd
  exact ⟨h1, h2⟩

theorem intToChars_cons (n : Int) :
    ∃ c tl, intToChars n = c :: tl ∧ (isDigitCh c = true ∨ c = '-') := by
  unfold intToChars
  split
  · exact ⟨'-', natToChars n.natAbs, rfl, Or.inr rfl⟩
  · obtain ⟨c, tl, hc, hd⟩ := natToChars_cons n.toNat
    exact ⟨c, tl, hc, Or.inl hd⟩

theorem decChars_cons (x : Dec) :
    ∃ c tl, x.chars = c :: tl ∧ (isDigitCh c = true ∨ c = '-') := by
  rw [Dec_chars_eq]
  split
  · refine ⟨'-', _, rfl, Or.inr rfl⟩
  · obtain ⟨c, tl, hc, hd⟩ := natToChars_cons (x.m.natAbs / 10 ^ (x.fr + 1))
    rw [hc]
    exact ⟨c, _, rfl, Or.inl hd⟩

theorem dumpScalar_cons (v : Scalar) :
    ∃ c tl, dumpScalar v = c :: tl ∧ (c = '"' ∨ isDigitCh c = true ∨ c = '-') := by
  cases v with
  | sstr s => exact ⟨'"', _, rfl, Or.inl rfl⟩
  | sint n =>
    obtain ⟨c, tl, hc, hd⟩ := intToChars_cons n
    exact ⟨c, tl, hc, Or.inr hd⟩
  | sfloat x =>
    obtain ⟨c, tl, hc, hd⟩ := decChars_cons x
    exact ⟨c, tl, hc, Or.inr hd⟩

theorem parseScalar_dump (v : Scalar) {rest : List Char} (hrest : sepOk rest) :
    parseScalar (dumpScalar v ++ rest) = some (v, rest) := by
  cases v with
  | sstr s =>
    have hsh : dumpScalar (.sstr s) ++ rest = '"' :: (escapeChars s.data ++ '"' :: rest) := by
      simp [dumpScalar, List.append_assoc]
    rw [hsh, parseScalar]
    rw [show ('"' == '"') = true from rfl, if_pos rfl]
    rw [parseStrBody_escape]
    rfl
  | sint n =>
    obtain ⟨c, tl, hc, hd⟩ := intToChars_cons n
    have hne : (c == '"') = false := by
      rcases hd with hd | hd
      · have : c ≠ '"' := ne_of_digit hd (show isDigitCh '"' = false by decide)
        simp [this]
      · subst hd; decide
    show parseScalar (intToChars n ++ rest) = _
    rw [hc, List.cons_append, parseScalar, hne]
    simp only [Bool.false_eq_true, if_false]
    rw [← List.cons_append, ← hc]
    exact parseNumber_int n hrest
  | sfloat x =>
    obtain ⟨c, tl, hc, hd⟩ := decChars_cons x
    have hne : (c == '"') = false := by
      rcases hd with hd | hd
      · have : c ≠ '"' := ne_of_digit hd (show isDigitCh '"' = false by decide)
        simp [this]
      · subst hd; decide
    show parseScalar (x.chars ++ rest) = _
    rw [hc, List.cons_append, parseScalar, hne]
    simp only [Bool.false_eq_true, if_false]
    rw [← List.cons_append, ← hc]
    exact parseNumber_dec x hrest

/-! ## Row and payload parsing round-trip -/

theorem dumpScalar_ne_nil (v : Scalar) : dumpScalar v ≠ [] := by
  obtain ⟨c, tl, hc, _⟩ := dumpScalar_cons v
  rw [hc]
  simp

theorem dumpList_length_ge {f : α → List Char} (hne : ∀ a, f a ≠ []) :
    ∀ vs : List α, vs.length ≤ (dumpList f vs).length := by
  intro vs
  induction vs with
  | nil => simp [dumpList]
  | cons a vs ih =>
    cases vs with
    | nil =>
      have := List.length_pos.mpr (hne a)
      simpa [dumpList] using this
    | cons b vs' =>
      have := List.length_pos.mpr (hne a)
      simp only [dumpList, List.length_append, List.length_cons]
      simp only [List.length_cons] at ih ⊢
      omega

theorem parseRowElems_dump (vs : List Scalar) :
    ∀ {fuel : Nat} {rest : List Char}, vs ≠ [] → vs.length ≤ fuel →
    parseRowElems fuel (dumpList dumpScalar vs ++ ']' :: rest) = some (vs, rest) := by
  induction vs with
  | nil => intro fuel rest h; exact absurd rfl h
  | cons v vs ih =>
    intro fuel rest _ hfuel
    match fuel, hfuel with
    | fuel + 1, hfuel =>
      cases vs with
      | nil =>
        show parseRowElems (fuel + 1) (dumpScalar v ++ ']' :: rest) = some ([v], rest)
        rw [parseRowElems]
        rw [parseScalar_dump v (sepOk_cons (by decide) (by decide))]
        rfl
      | cons b vs' =>
        have hsh : dumpList dumpScalar (v :: b :: vs') ++ ']' :: rest =
            dumpScalar v ++ ',' :: ' ' :: (dumpList dumpScalar (b :: vs') ++ ']' :: rest) := by
          simp [dumpList, List.append_assoc]
        rw [hsh, parseRowElems]
        rw [parseScalar_dump v (sepOk_cons (by decide) (by decide))]
        have hlen : (b :: vs').length ≤ fuel := by
          simp only [List.length_cons] at hfuel ⊢
          omega
        simp only [ih (by simp) hlen]

theorem parseRow_dump (row : List Scalar) (rest : List Char) :
    parseRow (dumpRow row ++ rest) = some (row, rest) := by
  cases row with
  | nil => simp [dumpRow, dumpList, parseRow]
  | cons v vs =>
    obtain ⟨c, tl, hc, hd⟩ := dumpScalar_cons v
    have hcne : c ≠ ']' := by
      rcases hd with h | h | h
      · subst h; decide
      · exact ne_of_digit h (show isDigitCh ']' = false by decide)
      · subst h; decide
    have hshape : dumpRow (v :: vs) ++ rest =
        '[' :: (dumpList dumpScalar (v :: vs) ++ ']' :: rest) := by
      simp [dumpRow, List.append_assoc]
    have hhead : ∃ tl2, dumpList dumpScalar (v :: vs) ++ ']' :: rest = c :: tl2 := by
      cases vs with
      | nil => exact ⟨tl ++ ']' :: rest, by simp [dumpList, hc]⟩
      | cons b vs' => exact ⟨tl ++ ',' :: ' ' :: dumpList dumpScalar (b :: vs') ++ ']' :: rest,
          by simp [dumpList, hc, List.append_assoc]⟩
    obtain ⟨tl2, htl2⟩ := hhead
    rw [hshape, parseRow]
    rw [if_neg (by rw [htl2]; simp [hcne])]
    rw [htl2, ← htl2]
    have hfuel : (v :: vs).length ≤ (dumpList dumpScalar (v :: vs) ++ ']' :: rest).length + 1 := by
      have h1 := dumpList_length_ge dumpScalar_ne_nil (v :: vs)
      simp only [List.length_append, List.length_cons] at h1 ⊢
      omega
    exact parseRowElems_dump (v :: vs) (by simp) hfuel

theorem dumpRow_ne_nil (row : List Scalar) : dumpRow row ≠ [] := by
  simp [dumpRow]

theorem parsePayloadElems_dump (rows : List (List Scalar)) :
    ∀ {fuel : Nat} {rest : List Char}, rows ≠ [] → rows.length ≤ fuel →
    parsePayloadElems fuel (dumpList dumpRow rows ++ ']' :: rest) = some (rows, rest) := by
  induction rows with
  | nil => intro fuel rest h; exact absurd rfl h
  | cons row rows ih =>
    intro fuel rest _ hfuel
    match fuel, hfuel with
    | fuel + 1, hfuel =>
      cases rows with
      | nil =>
        show parsePayloadElems (fuel + 1) (dumpRow row ++ ']' :: rest) = some ([row], rest)
        rw [parsePayloadElems]
        rw [parseRow_dump row (']' :: rest)]
        rfl
      | cons row2 rows' =>
        have hsh : dumpList dumpRow (row :: row2 :: rows') ++ ']' :: rest =
            dumpRow row ++ ',' :: ' ' :: (dumpList dumpRow (row2 :: rows') ++ ']' :: rest) := by
          simp [dumpList, List.append_assoc]
        rw [hsh, parsePayloadElems]
        rw [parseRow_dump row (',' :: ' ' :: (dumpList dumpRow (row2 :: rows') ++ ']' :: rest))]
        have hlen : (row2 :: rows').length ≤ fuel := by
          simp only [List.length_cons] at hfuel ⊢
          omega
        simp only [ih (by simp) hlen]

theorem parsePayload_dump (p : List (List Scalar)) (rest : List Char) :
    parsePayload (dumpPayload p ++ rest) = some (p, rest) := by
  cases p with
  | nil => simp [dumpPayload, dumpList, parsePayload]
  | cons row rows =>
    have hshape : dumpPayload (row :: rows) ++ rest =
        '[' :: (dumpList dumpRow (row :: rows) ++ ']' :: rest) := by
      simp [dumpPayload, List.append_assoc]
    have hhead : ∃ tl2, dumpList dumpRow (row :: rows) ++ ']' :: rest = '[' :: tl2 := by
      cases rows with
      | nil => exact ⟨(dumpList dumpScalar row ++ [']']) ++ ']' :: rest, by
          simp [dumpList, dumpRow, List.append_assoc]⟩
      | cons row2 rows' => exact ⟨(dumpList dumpScalar row ++ [']']) ++
          ',' :: ' ' :: (dumpList dumpRow (row2 :: rows') ++ ']' :: rest), by
          simp [dumpList, dumpRow, List.append_assoc]⟩
    obtain ⟨tl2, htl2⟩ := hhead
    rw [hshape, parsePayload]
    rw [if_neg (by rw [htl2]; simp)]
    have hfuel : (row :: rows).length ≤ (dumpList dumpRow (row :: rows) ++ ']' :: rest).length + 1 := by
      have h1 := dumpList_length_ge dumpRow_ne_nil (row :: rows)
      simp only [List.length_append, List.length_cons] at h1 ⊢
      omega
    exact parsePayloadElems_dump (row :: rows) (by simp) hfuel

theorem loads_dumps (p : List (List Scalar)) : json.loads (json.dumps p) = some p := by
  unfold json.loads json.dumps
  have hsh : (String.mk (dumpPayload p)).data = dumpPayload p ++ [] := by simp
  rw [hsh, parsePayload_dump]
  rfl

/-! ## ISO date round-trip -/

theorem daysInMonth_le (y m : Nat) : daysInMonth y m ≤ 31 := by
  unfold daysInMonth
  split
  · split <;> omega
  · split <;> omega

theorem fromisoformat_isoformat (d : PyDate) (h : d.valid = true) :
    PyDate.fromisoformat d.isoformat = some d := by
  obtain ⟨y, m, dd⟩ := d
  have hbounds := h
  unfold PyDate.valid at hbounds
  simp only [Bool.and_eq_true, decide_eq_true_eq] at hbounds
  obtain ⟨⟨⟨⟨⟨h1, h2⟩, h3⟩, h4⟩, h5⟩, h6⟩ := hbounds
  have hdle : dd ≤ 31 := le_trans h6 (daysInMonth_le y m)
  have e1 : isDigitCh (digitChar (y / 1000 % 10)) = true := isDigitCh_digitChar (Nat.mod_lt _ (by omega))
  have e2 : isDigitCh (digitChar (y / 100 % 10)) = true := isDigitCh_digitChar (Nat.mod_lt _ (by omega))
  have e3 : isDigitCh (digitChar (y / 10 % 10)) = true := isDigitCh_digitChar (Nat.mod_lt _ (by omega))
  have e4 : isDigitCh (digitChar (y % 10)) = true := isDigitCh_digitChar (Nat.mod_lt _ (by omega))
  have e5 : isDigitCh (digitChar (m / 10 % 10)) = true := isDigitCh_digitChar (Nat.mod_lt _ (by omega))
  have e6 : isDigitCh (digitChar (m % 10)) = true := isDigitCh_digitChar (Nat.mod_lt _ (by omega))
  have e7 : isDigitCh (digitChar (dd / 10 % 10)) = true := isDigitCh_digitChar (Nat.mod_lt _ (by omega))
  have e8 : isDigitCh (digitChar (dd % 10)) = true := isDigitCh_digitChar (Nat.mod_lt _ (by omega))
  have v1 : digitVal (digitChar (y / 1000 % 10)) = y / 1000 % 10 := digitVal_digitChar (Nat.mod_lt _ (by omega))
  have v2 : digitVal (digitChar (y / 100 % 10)) = y / 100 % 10 := digitVal_digitChar (Nat.mod_lt _ (by omega))
  have v3 : digitVal (digitChar (y / 10 % 10)) = y / 10 % 10 := digitVal_digitChar (Nat.mod_lt _ (by omega))
  have v4 : digitVal (digitChar (y % 10)) = y % 10 := digitVal_digitChar (Nat.mod_lt _ (by omega))
  have v5 : digitVal (digitChar (m / 10 % 10)) = m / 10 % 10 := digitVal_digitChar (Nat.mod_lt _ (by omega))
  have v6 : digitVal (digitChar (m % 10)) = m % 10 := digitVal_digitChar (Nat.mod_lt _ (by omega))
  have v7 : digitVal (digitChar (dd / 10 % 10)) = dd / 10 % 10 := digitVal_digitChar (Nat.mod_lt _ (by omega))
  have v8 : digitVal (digitChar (dd % 10)) = dd % 10 := digitVal_digitChar (Nat.mod_lt _ (by omega))
  have hy : charsToNat [digitChar (y / 1000 % 10), digitChar (y / 100 % 10),
      digitChar (y / 10 % 10), digitChar (y % 10)] = y := by
    simp only [charsToNat, List.foldl_cons, List.foldl_nil, v1, v2, v3, v4]
    omega
  have hm : charsToNat [digitChar (m / 10 % 10), digitChar (m % 10)] = m := by
    simp only [charsToNat, List.foldl_cons, List.foldl_nil, v5, v6]
    omega
  have hd : charsToNat [digitChar (dd / 10 % 10), digitChar (dd % 10)] = dd := by
    simp only [charsToNat, List.foldl_cons, List.foldl_nil, v7, v8]
    omega
  unfold PyDate.isoformat PyDate.fromisoformat
  simp only [e1, e2, e3, e4, e5, e6, e7, e8, hy, hm, hd]
  simp only [show ('-' == '-') = true from rfl, Bool.and_true, Bool.true_and, if_true]
  rw [if_pos h]

/-! ## Byte and zlib round-trips -/

theorem byteToChar_toNat (c : Char) : byteToChar c.toNat = some c := by
  unfold byteToChar
  rw [dif_pos (show c.toNat.isValidChar from c.valid)]
  rw [Char.ofNat_toNat]

theorem bytesToStr_strToBytes (s : String) : bytesToStr (strToBytes s) = some s := by
  obtain ⟨l⟩ := s
  unfold bytesToStr strToBytes
  have hmap : ∀ l : List Char, (l.map Char.toNat).mapM byteToChar = some l := by
    intro l
    induction l with
    | nil => rfl
    | cons c cs ih =>
      simp only [List.map_cons, List.mapM_cons, byteToChar_toNat, ih]
      rfl
  rw [show (String.mk l).data = l from rfl, hmap]
  rfl

theorem zlib_decompress_compress (bs : List Nat) :
    zlib.decompress (zlib.compress bs) = some bs := by
  unfold zlib.compress zlib.decompress
  simp only [show ((120 : Nat) == 120 && (156 : Nat) == 156) = true from rfl, if_true]
  rw [List.getLast?_concat, List.dropLast_concat]
  simp

/-! ## Lemmas about mapM over Except -/

theorem mapM_ok_of_forall {ε α β : Type} (f : α → Except ε β) (g : α → β) :
    ∀ l : List α, (∀ x ∈ l, f x = .ok (g x)) → l.mapM f = .ok (l.map g) := by
  intro l
  induction l with
  | nil => intro h; rfl
  | cons a l ih =>
    intro h
    rw [List.map_cons, List.mapM_cons, h a (List.mem_cons_self a l),
      ih (fun x hx => h x (List.mem_cons_of_mem a hx))]
    rfl

theorem mapM_eq_ok_forall₂ {ε α β : Type} (f : α → Except ε β) :
    ∀ {l : List α} {l' : List β}, l.mapM f = .ok l' →
      List.Forall₂ (fun a b => f a = .ok b) l l' := by
  intro l
  induction l with
  | nil =>
    intro l' h
    cases h
    exact List.Forall₂.nil
  | cons a l ih =>
    intro l' h
    rw [List.mapM_cons] at h
    cases hfa : f a with
    | error e => rw [hfa] at h; cases h
    | ok b =>
      rw [hfa] at h
      cases hml : l.mapM f with
      | error e =>
        rw [hml] at h
        cases h
      | ok bs =>
        rw [hml] at h
        have h4 : (Except.ok (b :: bs) : Except ε (List β)) = Except.ok l' := h
        cases h4
        exact List.Forall₂.cons hfa (ih hml)

theorem mapM_error_iff {ε α β : Type} (f : α → Except ε β) :
    ∀ l : List α, (∃ e, l.mapM f = .error e) ↔ ∃ x ∈ l, ∃ e, f x = .error e := by
  intro l
  induction l with
  | nil =>
    constructor
    · rintro ⟨e, h⟩; cases h
    · rintro ⟨x, hx, _⟩; cases hx
  | cons a l ih =>
    rw [List.mapM_cons]
    constructor
    · rintro ⟨e, h⟩
      cases hfa : f a with
      | error e2 => exact ⟨a, List.mem_cons_self a l, e2, hfa⟩
      | ok b =>
        rw [hfa] at h
        cases hml : l.mapM f with
        | error e2 =>
          obtain ⟨x, hx, he⟩ := ih.mp ⟨e2, hml⟩
          exact ⟨x, List.mem_cons_of_mem a hx, he⟩
        | ok bs => rw [hml] at h; cases h
    · rintro ⟨x, hx, e, he⟩
      rcases List.mem_cons.mp hx with rfl | hx2
      · rw [he]
        exact ⟨e, rfl⟩
      · cases hfa : f a with
        | error e2 => exact ⟨e2, rfl⟩
        | ok b =>
          obtain ⟨e3, h3⟩ := ih.mpr ⟨x, hx2, e, he⟩
          rw [h3]
          exact ⟨e3, rfl⟩

/-! ## Per-group round-trip -/

theorem toDecodedRow_serializeRecord (r : Record) (h : r.occurred_on.valid = true) :
    toDecodedRow (serializeRecord r) = .ok (recToDecoded r) := by
  unfold serializeRecord toDecodedRow recToDecoded
  simp only [fromisoformat_isoformat r.occurred_on h]

theorem mapM_serializeRecord : ∀ recs : List Record,
    (∀ r ∈ recs, r.occurred_on.valid = true) →
    (recs.map serializeRecord).mapM toDecodedRow = .ok (recs.map recToDecoded) := by
  intro recs
  induction recs with
  | nil => intro _; rfl
  | cons r rs ih =>
    intro h
    rw [List.map_cons, List.map_cons, List.mapM_cons,
      toDecodedRow_serializeRecord r (h r (List.mem_cons_self r rs)),
      ih (fun x hx => h x (List.mem_cons_of_mem r hx))]
    rfl

theorem decompress_compress_group (k : PyDate) (recs : List Record)
    (h : ∀ r ∈ recs, r.occurred_on.valid = true) :
    decompress_group (compress_group (k, recs)) = .ok (recs.map recToDecoded) := by
  show decompress_group
    (k, zlib.compress (strToBytes (json.dumps (recs.map serializeRecord)))) = _
  unfold decompress_group
  simp only [zlib_decompress_compress, bytesToStr_strToBytes, loads_dumps]
  exact mapM_serializeRecord recs h

/-! ## Lemmas about the grouping loop -/

theorem findGroup_addToGroups (gs : List (PyDate × List Record)) (r : Record) (k : PyDate) :
    findGroup (addToGroups gs r) k =
      if k = r.occurred_on then findGroup gs k ++ [r] else findGroup gs k := by
  induction gs with
  | nil =>
    by_cases h : k = r.occurred_on
    · subst h
      simp [addToGroups, findGroup]
    · have h2 : ¬(r.occurred_on = k) := fun e => h e.symm
      simp [addToGroups, findGroup, h, h2]
  | cons kg gs ih =>
    obtain ⟨k2, rs⟩ := kg
    unfold addToGroups
    by_cases h1 : k2 = r.occurred_on
    · rw [if_pos h1]
      by_cases h2 : k2 = k
      · subst h2
        rw [if_pos h1]
        simp [findGroup]
      · have hk : ¬(k = r.occurred_on) := fun e => h2 (h1.trans e.symm)
        rw [if_neg hk]
        simp [findGroup, h2]
    · rw [if_neg h1]
      by_cases h2 : k2 = k
      · subst h2
        rw [if_neg h1]
        simp [findGroup]
      · simp [findGroup, h2, ih]

theorem keys_addToGroups (gs : List (PyDate × List Record)) (r : Record) :
    (addToGroups gs r).map Prod.fst =
      if r.occurred_on ∈ gs.map Prod.fst then gs.map Prod.fst
      else gs.map Prod.fst ++ [r.occurred_on] := by
  induction gs with
  | nil => simp [addToGroups]
  | cons kg gs ih =>
    obtain ⟨k2, rs⟩ := kg
    unfold addToGroups
    by_cases h1 : k2 = r.occurred_on
    · rw [if_pos h1]
      subst h1
      simp
    · rw [if_neg h1]
      by_cases h2 : r.occurred_on ∈ gs.map Prod.fst
      · rw [if_pos (by simp [h2])]
        simp [ih, h2]
      · have hno : ¬(r.occurred_on ∈ ((k2, rs) :: gs).map Prod.fst) := by
          simp only [List.map_cons, List.mem_cons]
          rintro (h | h)
          · exact h1 h.symm
          · exact h2 h
        rw [if_neg hno]
        simp [ih, h2]

theorem nonempty_addToGroups (gs : List (PyDate × List Record)) (r : Record)
    (h : ∀ kg ∈ gs, kg.2 ≠ []) : ∀ kg ∈ addToGroups gs r, kg.2 ≠ [] := by
  induction gs with
  | nil =>
    intro kg hkg
    simp [addToGroups] at hkg
    subst hkg
    simp
  | cons kg0 gs ih =>
    obtain ⟨k2, rs⟩ := kg0
    unfold addToGroups
    intro kg hkg
    by_cases h1 : k2 = r.occurred_on
    · rw [if_pos h1] at hkg
      rcases List.mem_cons.mp hkg with rfl | hmem
      · simp
      · exact h (kg) (List.mem_cons_of_mem _ hmem)
    · rw [if_neg h1] at hkg
      rcases List.mem_cons.mp hkg with rfl | hmem
      · exact h (k2, rs) (List.mem_cons_self _ _)
      · exact ih (fun kg2 hkg2 => h kg2 (List.mem_cons_of_mem _ hkg2)) kg hmem

theorem totalLen_addToGroups (gs : List (PyDate × List Record)) (r : Record) :
    ((addToGroups gs r).map (fun kg => kg.2.length)).sum =
      ((gs.map (fun kg => kg.2.length)).sum) + 1 := by
  induction gs with
  | nil => simp [addToGroups]
  | cons kg gs ih =>
    obtain ⟨k2, rs⟩ := kg
    unfold addToGroups
    by_cases h1 : k2 = r.occurred_on
    · rw [if_pos h1]
      simp
      omega
    · rw [if_neg h1]
      simp only [List.map_cons, List.sum_cons, ih]
      omega

theorem flatten_addToGroups (gs : List (PyDate × List Record)) (r : Record) :
    ((addToGroups gs r).map Prod.snd).flatten.Perm
      ((gs.map Prod.snd).flatten ++ [r]) := by
  induction gs with
  | nil => simp [addToGroups]
  | cons kg gs ih =>
    obtain ⟨k2, rs⟩ := kg
    unfold addToGroups
    by_cases h1 : k2 = r.occurred_on
    · rw [if_pos h1]
      simp only [List.map_cons, List.flatten_cons, List.append_assoc]
      exact (List.Perm.append_left rs (List.perm_append_comm.trans (by simp)))
    · rw [if_neg h1]
      simp only [List.map_cons, List.flatten_cons, List.append_assoc]
      exact List.Perm.append_left rs ih

/-! ## The grouping loop folded over the whole input -/

theorem findGroup_foldl (l : List Record) :
    ∀ (gs : List (PyDate × List Record)) (k : PyDate),
    findGroup (l.foldl addToGroups gs) k =
      findGroup gs k ++ l.filter (fun r => r.occurred_on == k) := by
  induction l with
  | nil => intro gs k; simp
  | cons r l ih =>
    intro gs k
    rw [List.foldl_cons, ih]
    rw [findGroup_addToGroups]
    by_cases h : k = r.occurred_on
    · rw [if_pos h]
      rw [List.filter_cons, if_pos (by simp [h.symm])]
      simp
    · rw [if_neg h]
      rw [List.filter_cons, if_neg (by simp; exact fun e => h e.symm)]

theorem keys_foldl_mem (l : List Record) :
    ∀ (gs : List (PyDate × List Record)) (k : PyDate),
    k ∈ (l.foldl addToGroups gs).map Prod.fst ↔
      k ∈ gs.map Prod.fst ∨ k ∈ l.map (fun r => r.occurred_on) := by
  induction l with
  | nil => intro gs k; simp
  | cons r l ih =>
    intro gs k
    rw [List.foldl_cons, ih, keys_addToGroups]
    by_cases h : r.occurred_on ∈ gs.map Prod.fst
    · rw [if_pos h]
      simp only [List.map_cons, List.mem_cons]
      constructor
      · rintro (hk | hk)
        · exact Or.inl hk
        · exact Or.inr (Or.inr hk)
      · rintro (hk | hk | hk)
        · exact Or.inl hk
        · exact Or.inl (by rw [hk]; exact h)
        · exact Or.inr hk
    · rw [if_neg h]
      simp only [List.map_cons, List.mem_cons, List.mem_append, List.mem_singleton]
      tauto

theorem keysNodup_foldl (l : List Record) :
    ∀ gs : List (PyDate × List Record),
    ((gs.map Prod.fst).Nodup) → ((l.foldl addToGroups gs).map Prod.fst).Nodup := by
  induction l with
  | nil => intro gs h; simpa using h
  | cons r l ih =>
    intro gs h
    rw [List.foldl_cons]
    apply ih
    rw [keys_addToGroups]
    by_cases hm : r.occurred_on ∈ gs.map Prod.fst
    · rw [if_pos hm]; exact h
    · rw [if_neg hm]
      rw [List.nodup_append]
      refine ⟨h, List.nodup_singleton _, ?_⟩
      intro a ha hb
      rw [List.mem_singleton] at hb
      subst hb
      exact hm ha

theorem nonempty_foldl (l : List Record) :
    ∀ gs : List (PyDate × List Record),
    (∀ kg ∈ gs, kg.2 ≠ []) → ∀ kg ∈ l.foldl addToGroups gs, kg.2 ≠ [] := by
  induction l with
  | nil => intro gs h; simpa using h
  | cons r l ih =>
    intro gs h
    rw [List.foldl_cons]
    exact ih _ (nonempty_addToGroups gs r h)

theorem totalLen_foldl (l : List Record) :
    ∀ gs : List (PyDate × List Record),
    (((l.foldl addToGroups gs).map (fun kg => kg.2.length)).sum) =
      ((gs.map (fun kg => kg.2.length)).sum) + l.length := by
  induction l with
  | nil => intro gs; simp
  | cons r l ih =>
    intro gs
    rw [List.foldl_cons, ih, totalLen_addToGroups]
    simp only [List.length_cons]
    omega

theorem flatten_foldl (l : List Record) :
    ∀ gs : List (PyDate × List Record),
    ((l.foldl addToGroups gs).map Prod.snd).flatten.Perm
      ((gs.map Prod.snd).flatten ++ l) := by
  induction l with
  | nil => intro gs; simp
  | cons r l ih =>
    intro gs
    rw [List.foldl_cons]
    refine (ih (addToGroups gs r)).trans ?_
    refine (List.Perm.append_right l (flatten_addToGroups gs r)).trans ?_
    rw [List.append_assoc]
    exact List.Perm.append_left _ (by simp)

/-! ## Facts about groupRecords -/

theorem findGroup_groupRecords (l : List Record) (k : PyDate) :
    findGroup (groupRecords l) k = l.filter (fun r => r.occurred_on == k) := by
  unfold groupRecords
  rw [findGroup_foldl]
  rfl

theorem mem_keys_groupRecords (l : List Record) (k : PyDate) :
    k ∈ (groupRecords l).map Prod.fst ↔ k ∈ l.map (fun r => r.occurred_on) := by
  unfold groupRecords
  rw [keys_foldl_mem]
  simp

theorem keysNodup_groupRecords (l : List Record) :
    ((groupRecords l).map Prod.fst).Nodup := by
  unfold groupRecords
  exact keysNodup_foldl l [] (by simp)

theorem snd_eq_findGroup_of_nodup :
    ∀ gs : List (PyDate × List Record), ((gs.map Prod.fst).Nodup) →
    ∀ kg ∈ gs, findGroup gs kg.1 = kg.2 := by
  intro gs
  induction gs with
  | nil => intro _ kg hkg; cases hkg
  | cons kg0 gs ih =>
    obtain ⟨k2, rs⟩ := kg0
    intro hnd kg hkg
    rw [List.map_cons, List.nodup_cons] at hnd
    rcases List.mem_cons.mp hkg with rfl | hmem
    · simp [findGroup]
    · have hne : k2 ≠ kg.1 := by
        intro e
        apply hnd.1
        rw [e]
        exact List.mem_map.mpr ⟨kg, hmem, rfl⟩
      unfold findGroup
      rw [if_neg hne]
      exact ih hnd.2 kg hmem

theorem group_eq_filter (l : List Record) :
    ∀ kg ∈ groupRecords l, kg.2 = l.filter (fun r => r.occurred_on == kg.1) := by
  intro kg hkg
  rw [← findGroup_groupRecords]
  exact (snd_eq_findGroup_of_nodup (groupRecords l) (keysNodup_groupRecords l) kg hkg).symm

theorem group_sizes_sum (l : List Record) :
    (((groupRecords l).map (fun kg => kg.2.length)).sum) = l.length := by
  unfold groupRecords
  rw [totalLen_foldl]
  simp

theorem flatten_groupRecords (l : List Record) :
    ((groupRecords l).map Prod.snd).flatten.Perm l := by
  unfold groupRecords
  have := flatten_foldl l []
  simpa using this

/-! ## Injectivity of the sort key and the verifier equivalence -/

theorem dumpRow_injective {a b : List Scalar} (h : dumpRow a = dumpRow b) : a = b := by
  have ha := parseRow_dump a []
  have hb := parseRow_dump b []
  rw [List.append_nil] at ha hb
  rw [h, hb] at ha
  have h2 : (b, ([] : List Char)) = (a, []) := Option.some.inj ha
  exact (congrArg Prod.fst h2).symm

theorem recKey_injective {a b : PyDate × List Scalar} (h : recKey a = recKey b) : a = b := by
  obtain ⟨⟨y1, m1, d1⟩, vs1⟩ := a
  obtain ⟨⟨y2, m2, d2⟩, vs2⟩ := b
  have h2 : (y1, (m1, (d1, String.mk (dumpRow vs1)))) =
      (y2, (m2, (d2, String.mk (dumpRow vs2)))) := h
  obtain ⟨e1, e2⟩ := Prod.mk.inj h2
  obtain ⟨e3, e4⟩ := Prod.mk.inj e2
  obtain ⟨e5, e6⟩ := Prod.mk.inj e4
  have e7 : dumpRow vs1 = dumpRow vs2 := congrArg String.data e6
  have e8 : vs1 = vs2 := dumpRow_injective e7
  subst e1
  subst e3
  subst e5
  subst e8
  rfl

theorem recLE_total : ∀ a b, recLE a b ∨ recLE b a := fun a b => le_total (recKey a) (recKey b)

theorem recLE_trans : ∀ {a b c}, recLE a b → recLE b c → recLE a c := fun h1 h2 => le_trans h1 h2

theorem recLE_antisymm : ∀ {a b}, recLE a b → recLE b a → a = b :=
  fun h1 h2 => recKey_injective (le_antisymm h1 h2)

instance : IsTotal (PyDate × List Scalar) recLE := ⟨recLE_total⟩

instance : IsTrans (PyDate × List Scalar) recLE := ⟨fun _ _ _ => recLE_trans⟩

instance : IsAntisymm (PyDate × List Scalar) recLE := ⟨fun _ _ => recLE_antisymm⟩

theorem sortedRecs_perm (l : List (PyDate × List Scalar)) : (sortedRecs l).Perm l :=
  List.perm_insertionSort recLE l

theorem sortedRecs_sorted (l : List (PyDate × List Scalar)) : List.Sorted recLE (sortedRecs l) :=
  List.sorted_insertionSort recLE l

theorem sortedRecs_eq_iff {l1 l2 : List (PyDate × List Scalar)} :
    sortedRecs l1 = sortedRecs l2 ↔ l1.Perm l2 := by
  constructor
  · intro h
    refine (sortedRecs_perm l1).symm.trans ?_
    rw [h]
    exact sortedRecs_perm l2
  · intro h
    exact List.eq_of_perm_of_sorted
      ((sortedRecs_perm l1).trans (h.trans (sortedRecs_perm l2).symm))
      (sortedRecs_sorted l1) (sortedRecs_sorted l2)

theorem verifyData_iff_perm (orig : List Record) (retr : List (PyDate × List Scalar)) :
    verifyData orig retr = true ↔ (orig.map recToDecoded).Perm retr := by
  unfold verifyData
  rw [decide_eq_true_iff]
  exact sortedRecs_eq_iff

/-! ## Lemmas about the dispatcher model -/

theorem findResult_runTasks {α β : Type} (f : α → β) (items : List α) :
    ∀ (order : List Nat) (i : Nat), (∀ j ∈ order, j < items.length) → i ∈ order →
    findResult (runTasks f items order) i = (items.get? i).map f := by
  intro order
  induction order with
  | nil => intro i _ hi; cases hi
  | cons j order ih =>
    intro i hall hi
    have hj : j < items.length := hall j (List.mem_cons_self _ _)
    obtain ⟨a, ha⟩ : ∃ a, items.get? j = some a := by
      cases hja : items.get? j with
      | none => exact absurd (List.get?_eq_none.mp hja) (by omega)
      | some a => exact ⟨a, rfl⟩
    unfold runTasks
    rw [List.filterMap_cons, ha]
    show findResult ((j, f a) :: runTasks f items order) i = _
    unfold findResult
    by_cases hij : j = i
    · subst hij
      rw [if_pos rfl, ha]
      rfl
    · rw [if_neg hij]
      have hmem : i ∈ order := by
        rcases List.mem_cons.mp hi with rfl | hm
        · exact absurd rfl hij
        · exact hm
      exact ih i (fun x hx => hall x (List.mem_cons_of_mem _ hx)) hmem

theorem range_map_get {α β : Type} (f : α → β) :
    ∀ items : List α, (List.range items.length).map (fun i => (items.get? i).map f) =
      items.map (fun a => some (f a)) := by
  intro items
  induction items with
  | nil => rfl
  | cons a items ih =>
    rw [List.length_cons, List.range_succ_eq_map, List.map_cons, List.map_map]
    have hcomp : ((fun i => ((a :: items).get? i).map f) ∘ Nat.succ) =
        (fun i => (items.get? i).map f) := by
      funext i
      rfl
    rw [hcomp, ih, List.map_cons]
    rfl

/-! ## The whole pipeline evaluated -/

theorem mapM_decompress : ∀ gs : List (PyDate × List Record),
    (∀ kg ∈ gs, ∀ r ∈ kg.2, r.occurred_on.valid = true) →
    (gs.map compress_group).mapM decompress_group =
      .ok (gs.map (fun kg => kg.2.map recToDecoded)) := by
  intro gs
  induction gs with
  | nil => intro _; rfl
  | cons kg gs ih =>
    intro h
    rw [List.map_cons, List.map_cons, List.mapM_cons]
    rw [show compress_group kg = compress_group (kg.1, kg.2) from rfl]
    rw [decompress_compress_group kg.1 kg.2 (h kg (List.mem_cons_self _ _)),
      ih (fun kg2 hkg2 => h kg2 (List.mem_cons_of_mem _ hkg2))]
    rfl

theorem flatten_map_map (gs : List (PyDate × List Record)) :
    (gs.map (fun kg => kg.2.map recToDecoded)).flatten =
      ((gs.map Prod.snd).flatten).map recToDecoded := by
  induction gs with
  | nil => rfl
  | cons kg gs ih => simp [ih]

theorem valid_of_mem_group (records : List Record)
    (h : ∀ r ∈ records, r.occurred_on.valid = true) :
    ∀ kg ∈ groupRecords records, ∀ r ∈ kg.2, r.occurred_on.valid = true := by
  intro kg hkg r hr
  rw [group_eq_filter records kg hkg] at hr
  exact h r (List.mem_filter.mp hr).1

theorem retrieveAll_eq (records : List Record)
    (h : ∀ r ∈ records, r.occurred_on.valid = true) :
    retrieveAll records =
      .ok ((((groupRecords records).map Prod.snd).flatten).map recToDecoded) := by
  unfold retrieveAll decompressAll compressAll
  rw [mapM_decompress (groupRecords records) (valid_of_mem_group records h)]
  rw [show Except.map List.flatten
      ((Except.ok ((groupRecords records).map (fun kg => kg.2.map recToDecoded))) :
        Except CorruptBlobError (List (List (PyDate × List Scalar)))) =
    Except.ok ((groupRecords records).map (fun kg => kg.2.map recToDecoded)).flatten from rfl]
  rw [flatten_map_map]

/-! ## Claim theorems -/

/-- C1: for every finite Record sequence with calendar-valid dates (the
invariant `datetime.date` enforces by construction), grouping by date,
compressing each group, decompressing each blob and flattening succeeds and
yields the input sequence as a multiset (each record appearing in its wire
tuple form `recToDecoded`). -/
theorem claim1_roundtrip_multiset (records : List Record)
    (h : ∀ r ∈ records, r.occurred_on.valid = true) :
    ∃ l, retrieveAll records = .ok l ∧
      ((l : List (PyDate × List Scalar)) : Multiset (PyDate × List Scalar)) =
        ((records.map recToDecoded : List (PyDate × List Scalar)) :
          Multiset (PyDate × List Scalar)) := by
  refine ⟨_, retrieveAll_eq records h, ?_⟩
  rw [Multiset.coe_eq_coe]
  exact (flatten_groupRecords records).map recToDecoded

theorem claim1_witness :
    (∀ r ∈ demoRecords, r.occurred_on.valid = true) ∧
    ∃ l, retrieveAll demoRecords = .ok l ∧
      ((l : List (PyDate × List Scalar)) : Multiset (PyDate × List Scalar)) =
        ((demoRecords.map recToDecoded : List (PyDate × List Scalar)) :
          Multiset (PyDate × List Scalar)) :=
  ⟨by decide, claim1_roundtrip_multiset demoRecords (by decide)⟩

/-- C2: the grouping loop produces one group per distinct date (keys without
duplicates, present exactly for the dates occurring in the input), each group
being exactly the input subsequence with that date (hence order-preserving,
non-empty, with every record in exactly the group of its own date), and the
group sizes sum to the input length. -/
theorem claim2_grouping (records : List Record) :
    ((groupRecords records).map Prod.fst).Nodup ∧
    (∀ k, k ∈ (groupRecords records).map Prod.fst ↔
      k ∈ records.map (fun r => r.occurred_on)) ∧
    (∀ kg ∈ groupRecords records,
      kg.2 = records.filter (fun r => r.occurred_on == kg.1) ∧ kg.2 ≠ []) ∧
    ((groupRecords records).map (fun kg => kg.2.length)).sum = records.length := by
  refine ⟨keysNodup_groupRecords records, fun k => mem_keys_groupRecords records k,
    ?_, group_sizes_sum records⟩
  intro kg hkg
  refine ⟨group_eq_filter records kg hkg, ?_⟩
  have hk : kg.1 ∈ records.map (fun r => r.occurred_on) :=
    (mem_keys_groupRecords records kg.1).mp (List.mem_map.mpr ⟨kg, hkg, rfl⟩)
  obtain ⟨r, hr, hrd⟩ := List.mem_map.mp hk
  rw [group_eq_filter records kg hkg]
  intro hnil
  have hmem : r ∈ records.filter (fun r => r.occurred_on == kg.1) :=
    List.mem_filter.mpr ⟨hr, by simp [hrd]⟩
  rw [hnil] at hmem
  cases hmem

/-- C3: decoding the blob produced by compress_group for a (key, records)
pair recovers exactly the input records, element-wise and in order, each in
its wire tuple form; decompress_group is a left inverse of compress_group on
every group whose dates are calendar-valid. -/
theorem claim3_group_left_inverse (k : PyDate) (recs : List Record)
    (h : ∀ r ∈ recs, r.occurred_on.valid = true) :
    decompress_group (compress_group (k, recs)) = .ok (recs.map recToDecoded) :=
  decompress_compress_group k recs h

theorem claim3_witness :
    (∀ r ∈ demoRecords, r.occurred_on.valid = true) ∧
    decompress_group (compress_group (⟨2023, 5, 1⟩, demoRecords)) =
      .ok (demoRecords.map recToDecoded) :=
  ⟨by decide, claim3_group_left_inverse ⟨2023, 5, 1⟩ demoRecords (by decide)⟩

theorem decompress_group_err1 (row : PyDate × List Nat)
    (h : zlib.decompress row.2 = none) :
    decompress_group row = .error .zlibError := by
  unfold decompress_group
  rw [h]

theorem decompress_group_err2 (row : PyDate × List Nat) (bs : List Nat)
    (h1 : zlib.decompress row.2 = some bs) (h2 : bytesToStr bs = none) :
    decompress_group row = .error .unicodeDecodeError := by
  unfold decompress_group
  rw [h1]
  show (match bytesToStr bs with
    | none => Except.error CorruptBlobError.unicodeDecodeError
    | some s =>
      match json.loads s with
      | none => Except.error CorruptBlobError.jsonDecodeError
      | some rows => rows.mapM toDecodedRow) = _
  rw [h2]

theorem decompress_group_err3 (row : PyDate × List Nat) (bs : List Nat) (s : String)
    (h1 : zlib.decompress row.2 = some bs) (h2 : bytesToStr bs = some s)
    (h3 : json.loads s = none) :
    decompress_group row = .error .jsonDecodeError := by
  unfold decompress_group
  rw [h1]
  show (match bytesToStr bs with
    | none => Except.error CorruptBlobError.unicodeDecodeError
    | some s =>
      match json.loads s with
      | none => Except.error CorruptBlobError.jsonDecodeError
      | some rows => rows.mapM toDecodedRow) = _
  rw [h2]
  show (match json.loads s with
    | none => Except.error CorruptBlobError.jsonDecodeError
    | some rows => rows.mapM toDecodedRow) = _
  rw [h3]

theorem decompress_group_stage (row : PyDate × List Nat) (bs : List Nat) (s : String)
    (rows : List (List Scalar))
    (h1 : zlib.decompress row.2 = some bs) (h2 : bytesToStr bs = some s)
    (h3 : json.loads s = some rows) :
    decompress_group row = rows.mapM toDecodedRow := by
  unfold decompress_group
  rw [h1]
  show (match bytesToStr bs with
    | none => Except.error CorruptBlobError.unicodeDecodeError
    | some s =>
      match json.loads s with
      | none => Except.error CorruptBlobError.jsonDecodeError
      | some rows => rows.mapM toDecodedRow) = _
  rw [h2]
  show (match json.loads s with
    | none => Except.error CorruptBlobError.jsonDecodeError
    | some rows => rows.mapM toDecodedRow) = _
  rw [h3]

/-- C4: decompress_group fails with a CorruptBlobError exactly when one of
its stages (decompression, text decoding, JSON parsing, per-row structural
conversion) fails, and on success the returned sequence is the complete
in-order decode of every parsed row — never a truncated or altered one.
The Except type makes CorruptBlobError the only failure mode. -/
theorem claim4_corruption (row : PyDate × List Nat) :
    ((∃ e, decompress_group row = .error e) ↔
      (zlib.decompress row.2 = none ∨
        ∃ bs, zlib.decompress row.2 = some bs ∧ (bytesToStr bs = none ∨
          ∃ s, bytesToStr bs = some s ∧ (json.loads s = none ∨
            ∃ rows, json.loads s = some rows ∧
              ∃ t ∈ rows, ∃ e, toDecodedRow t = .error e)))) ∧
    (∀ l, decompress_group row = .ok l →
      ∃ bs s rows, zlib.decompress row.2 = some bs ∧ bytesToStr bs = some s ∧
        json.loads s = some rows ∧
        List.Forall₂ (fun t d => toDecodedRow t = .ok d) rows l) := by
  cases hz : zlib.decompress row.2 with
  | none =>
    rw [decompress_group_err1 row hz]
    exact ⟨⟨fun _ => Or.inl rfl, fun _ => ⟨.zlibError, rfl⟩⟩, fun l hl => by cases hl⟩
  | some bs =>
    cases hb : bytesToStr bs with
    | none =>
      rw [decompress_group_err2 row bs hz hb]
      exact ⟨⟨fun _ => Or.inr ⟨bs, rfl, Or.inl hb⟩,
        fun _ => ⟨.unicodeDecodeError, rfl⟩⟩, fun l hl => by cases hl⟩
    | some s =>
      cases hj : json.loads s with
      | none =>
        rw [decompress_group_err3 row bs s hz hb hj]
        exact ⟨⟨fun _ => Or.inr ⟨bs, rfl, Or.inr ⟨s, hb, Or.inl hj⟩⟩,
          fun _ => ⟨.jsonDecodeError, rfl⟩⟩, fun l hl => by cases hl⟩
      | some rows =>
        rw [decompress_group_stage row bs s rows hz hb hj]
        refine ⟨⟨?_, ?_⟩, ?_⟩
        · rintro ⟨e, he⟩
          exact Or.inr ⟨bs, rfl, Or.inr ⟨s, hb, Or.inr ⟨rows, hj,
            (mapM_error_iff toDecodedRow rows).mp ⟨e, he⟩⟩⟩⟩
        · rintro (h | ⟨bs2, hbs2, h | ⟨s2, hs2, h | ⟨rows2, hrows2, ht⟩⟩⟩)
          · cases h
          · cases hbs2
            rw [hb] at h
            cases h
          · cases hbs2
            rw [hb] at hs2
            cases hs2
            rw [hj] at h
            cases h
          · cases hbs2
            rw [hb] at hs2
            cases hs2
            rw [hj] at hrows2
            cases hrows2
            exact (mapM_error_iff toDecodedRow rows).mpr ht
        · intro l hl
          exact ⟨bs, s, rows, rfl, hb, hj, mapM_eq_ok_forall₂ toDecodedRow hl⟩

/-- C5: the verifier of main (equality of the two sorted lists) reports true
exactly when the original and reconstructed sequences are equal as multisets
under field-wise record equality, so the sorted comparison is a bag
comparison; the verifier is a single Bool. -/
theorem claim5_verifier_iff (orig : List Record) (retr : List (PyDate × List Scalar)) :
    verifyData orig retr = true ↔
      ((orig.map recToDecoded : List (PyDate × List Scalar)) :
        Multiset (PyDate × List Scalar)) = (retr : Multiset (PyDate × List Scalar)) := by
  rw [verifyData_iff_perm, Multiset.coe_eq_coe]

/-- C6: dispatching a pure transformation over the pool, with workers
completing in an arbitrary order covering every submitted index exactly once,
fills every result slot with exactly the value the sequential map produces:
no result is lost, duplicated or dropped, and any completion order (including
the sequential, degenerate one) gives the same output. -/
theorem claim6_pool_map {α β : Type} (f : α → β) (items : List α) (order : List Nat)
    (h : order.Perm (List.range items.length)) :
    poolMap f items order = items.map (fun a => some (f a)) := by
  unfold poolMap
  have hmem : ∀ j ∈ order, j < items.length := fun j hj =>
    List.mem_range.mp (h.subset hj)
  have hin : ∀ i, i ∈ List.range items.length → i ∈ order := fun i hi =>
    (h.mem_iff).mpr hi
  rw [List.map_congr_left (fun i hi => findResult_runTasks f items order i hmem (hin i hi))]
  exact range_map_get f items

theorem claim6_witness :
    ([2, 0, 1] : List Nat).Perm (List.range 3) ∧
    poolMap (fun n => n * n) [1, 2, 3] [2, 0, 1] = [some 1, some 4, some 9] :=
  ⟨by decide, claim6_pool_map (fun n => n * n) [1, 2, 3] [2, 0, 1] (by decide)⟩

/-- C7: the encoder's blob is byte-for-byte the three-step composition —
replace each record's date by its ISO text, JSON-serialize the ordered rows,
compress with the lossless zlib codec — and the codec is lossless. -/
theorem claim7_encoder_three_steps (k : PyDate) (recs : List Record) :
    compress_group (k, recs) =
      (k, zlib.compress (strToBytes (json.dumps (recs.map serializeRecord)))) ∧
    (∀ bs, zlib.decompress (zlib.compress bs) = some bs) ∧
    (∀ r : Record, serializeRecord r =
      .sstr r.occurred_on.isoformat ::
        [.sstr r.side, .sstr r.symbol, .sint r.quantity, .sfloat r.price]) :=
  ⟨rfl, zlib_decompress_compress, fun _ => rfl⟩

/-- C8: the empty input is degenerate but valid — no groups, no blobs, an
empty reconstruction, and a vacuously passing verification. -/
theorem claim8_empty_input :
    groupRecords [] = [] ∧ compressAll [] = [] ∧
    retrieveAll [] = .ok [] ∧ verifyData [] [] = true :=
  ⟨rfl, rfl, rfl, rfl⟩

/-- C10: compress_group is deterministic — as a pure function of its input
(zlib.compress at its fixed default level is a deterministic function), two
invocations on the same group are byte-identical — which in particular gives
the spec's weaker requirement that repeated encodings decode to the same
content, namely the group itself. -/
theorem claim10_encoder_deterministic (g : PyDate × List Record) :
    compress_group g = compress_group g ∧
    ((∀ r ∈ g.2, r.occurred_on.valid = true) →
      decompress_group (compress_group g) = .ok (g.2.map recToDecoded)) :=
  ⟨rfl, fun h => by
    rw [show compress_group g = compress_group (g.1, g.2) from rfl]
    exact decompress_compress_group g.1 g.2 h⟩

theorem claim10_witness :
    compress_group (⟨2023, 5, 1⟩, demoRecords) = compress_group (⟨2023, 5, 1⟩, demoRecords) ∧
    decompress_group (compress_group (⟨2023, 5, 1⟩, demoRecords)) =
      .ok (demoRecords.map recToDecoded) :=
  ⟨(claim10_encoder_deterministic (⟨2023, 5, 1⟩, demoRecords)).1,
    (claim10_encoder_deterministic (⟨2023, 5, 1⟩, demoRecords)).2 (by decide)⟩

end DBCompress
